import Mathlib

/-!
Verification of `lightlab/util/io.py` (iromero91/lightlab).

This file gives a shallow embedding of the pieces of `io.py` that the
specification talks about:

* `ProgressWriter` — the n-dimensional sweep-progress counter
  (`__init__`, `update`, `__updateOneInternal`);
* the persistence helpers `savePickle` / `loadPickle`,
  `_gzfilename` / `savePickleGzip` / `loadPickleGzip`,
  `saveMat` / `loadMat` with their filename-extension conventions;
* the `JSONpickleable` mixin (`__getstate__`, `__setstate__`,
  `_fromJSONcheck`) together with the `HardwareReference` placeholder.

Modelling conventions:

* Python integers and numpy integer arrays are modelled by `Nat`
  (sweep sizes are far below the int64 range, so numpy overflow is out
  of scope);
* the filesystem is a partial map from path strings to file contents;
  the serialization libraries (`pickle`, `gzip`, `scipy.io`) are
  modelled as faithful stores: a file holds the value that was dumped
  into it.  The repository code's own contribution — which path each
  helper reads and writes — is modelled exactly;
* Python `dict`s are modelled as association lists (for iteration
  order, which Python guarantees to be insertion order) together with
  a functional view `String → Option PyVal` for the mutated state;
* Python string slicing `s[-n:]` / `s[:-n]` is modelled on the
  character list `String.data`.
-/

/-! ## ProgressWriter (io.py lines 104–281)

State of a `ProgressWriter`.  The fields mirror the attributes set in
`ProgressWriter.__init__`: `size = np.array(swpSize)`,
`currentPnt = np.zeros_like(size)`, `totalSize = np.prod(size)`,
`ofTotal = 0`, `completed = False`.  The printing/HTML fields
(`serving`, `printing`, `filePath`, `startTime`) do not affect the
counter state and are omitted.
-/

structure ProgressWriter where
  size : List Nat
  currentPnt : List Nat
  totalSize : Nat
  ofTotal : Nat
  completed : Bool
deriving Repr, DecidableEq

/-- `ProgressWriter.__init__(name, swpSize)` for a `swpSize` tuple
(`np.isscalar` is false on tuples, so `size = np.array(swpSize)`). -/
def ProgressWriter.init (swpSize : List Nat) : ProgressWriter :=
  { size := swpSize
    currentPnt := List.replicate swpSize.length 0
    totalSize := swpSize.prod
    ofTotal := 0
    completed := false }

/-- The loop body of `ProgressWriter.__updateOneInternal`, acting on the
*reversed* `size` and `currentPnt` lists: the Python loop walks indices
`-i-1` for `i in range(len(size))`, i.e. from the last dimension to the
first, incrementing the first digit that is below `size - 1` and zeroing
every digit it passes over. -/
def incOdoRev : List Nat → List Nat → List Nat
  | s :: ss, c :: cs => if c < s - 1 then (c + 1) :: cs else 0 :: incOdoRev ss cs
  | _, cs => cs

/-- `ProgressWriter.__updateOneInternal`: advance the odometer one step,
increment `ofTotal`, and set `completed` when `ofTotal == totalSize`. -/
def ProgressWriter.updateOneInternal (pw : ProgressWriter) : ProgressWriter :=
  { pw with
    currentPnt := (incOdoRev pw.size.reverse pw.currentPnt.reverse).reverse
    ofTotal := pw.ofTotal + 1
    completed := if pw.ofTotal + 1 = pw.totalSize then true else pw.completed }

/-- The exception message raised by `ProgressWriter.update` on a
completed sweep. -/
def completedErrMsg : String :=
  "This sweep has supposedly completed. Make a new object to go again"

/-- `ProgressWriter.update(steps)`: raise if the sweep is already
completed, otherwise run `__updateOneInternal` `steps` times.  The
HTML/stdout writes performed afterwards do not change the counter
state and are not modelled. -/
def ProgressWriter.update (pw : ProgressWriter) (steps : Nat) :
    Except String ProgressWriter :=
  if pw.completed then .error completedErrMsg
  else .ok (ProgressWriter.updateOneInternal^[steps] pw)

/-- `k` successive calls of `update(steps=1)`, propagating the exception. -/
def updateN : Nat → ProgressWriter → Except String ProgressWriter
  | 0, pw => .ok pw
  | k + 1, pw =>
    match pw.update 1 with
    | .ok pw' => updateN k pw'
    | .error e => .error e

/-- Mixed-radix digits of `k`, least-significant digit first, for the
reversed base list (spec-side definition used to state the odometer
claims). -/
def toMixedRev : List Nat → Nat → List Nat
  | [], _ => []
  | b :: bs, k => k % b :: toMixedRev bs (k / b)

/-- Mixed-radix representation of `k` in bases `size`, last dimension
least significant (the spec's odometer order). -/
def mixedRadix (size : List Nat) (k : Nat) : List Nat :=
  (toMixedRev size.reverse k).reverse

/-- The counter state reached after `k` single steps from
`ProgressWriter.init size` (to be proved below). -/
def stateAfter (size : List Nat) (k : Nat) : ProgressWriter :=
  { size := size
    currentPnt := mixedRadix size k
    totalSize := size.prod
    ofTotal := k
    completed := decide (size.prod ≤ k) }

/-! ### Bounds invariant (for claim C5) -/

/-- The claim's invariant: `currentPnt` has one entry per dimension and
`0 ≤ currentPnt[i] ≤ size[i] - 1` for every dimension `i` (the lower
bound is automatic over `Nat`). -/
def inBoundsIdx (pw : ProgressWriter) : Prop :=
  pw.currentPnt.length = pw.size.length ∧
  ∀ i (hc : i < pw.currentPnt.length) (hs : i < pw.size.length),
    pw.currentPnt.get ⟨i, hc⟩ ≤ pw.size.get ⟨i, hs⟩ - 1

/-! ## File persistence helpers (io.py lines 288–522)

The filesystem is modelled as a partial map from path strings to file
contents; the serialization libraries (`pickle`, `gzip`, `scipy.io`)
are modelled as faithful stores (a file holds the value dumped into
it), so that only the repository code's own contribution — which path
each helper resolves and whether it checks existence — is under proof.
`fileDir` is the module-level directory both save and load use.
-/

/-- Python string slice `s[-n:]` on the character list. -/
def pyLastN (s : String) (n : Nat) : List Char :=
  s.data.drop (s.data.length - n)

/-- The `.mat` extension step shared by `saveMat` and `loadMat`:
`if filename[-4:] != '.mat': filename += '.mat'`. -/
def matFilename (filename : String) : String :=
  if pyLastN filename 4 = ".mat".data then filename else filename ++ ".mat"

/-- The spec's description of the same convention: append `.mat` when
the name does not already *end with* `.mat` (refinement target for
claim C7, written from the spec's words). -/
def matFilenameSpec (filename : String) : String :=
  if ".mat".data <:+ filename.data then filename else filename ++ ".mat"

/-- File-not-found failure (Python `FileNotFoundError`). -/
inductive IOErr where
  | fileNotFound (path : String)
deriving DecidableEq, Repr

/-- The filesystem visible to the persistence helpers. -/
def FileSys (α : Type) : Type := String → Option α

/-- Writing a file (creating it when missing, as `_makeFileExist`
touches it first). -/
def fsWrite {α : Type} (fs : FileSys α) (path : String) (v : α) : FileSys α :=
  fun q => if q = path then some v else fs q

/-- Reading a file; a missing path raises `FileNotFoundError`. -/
def fsRead {α : Type} (fs : FileSys α) (path : String) : Except IOErr α :=
  match fs path with
  | some v => .ok v
  | none => .error (.fileNotFound path)

/-- The resolved path `fileDir / filename`. -/
def filePath (fileDir filename : String) : String :=
  fileDir ++ "/" ++ filename

/-- `savePickle(filename, dataTuple)`: touch and write
`fileDir/filename` (no extension is added). -/
def savePickle {α : Type} (fileDir : String) (fs : FileSys α)
    (filename : String) (v : α) : FileSys α :=
  fsWrite fs (filePath fileDir filename) v

/-- `loadPickle(filename)`: read `fileDir/filename`. -/
def loadPickle {α : Type} (fileDir : String) (fs : FileSys α)
    (filename : String) : Except IOErr α :=
  fsRead fs (filePath fileDir filename)

/-- `_gzfilename(filename)`: ensure the name ends with `.gz`, using
Python's `str.endswith('.gz')`. -/
def gzfilename (filename : String) : String :=
  if ".gz".data <:+ filename.data then filename else filename ++ ".gz"

/-- `savePickleGzip(filename, dataTuple)`: write
`fileDir/_gzfilename(filename)`. -/
def savePickleGzip {α : Type} (fileDir : String) (fs : FileSys α)
    (filename : String) (v : α) : FileSys α :=
  fsWrite fs (filePath fileDir (gzfilename filename)) v

/-- `loadPickleGzip(filename)`: read `fileDir/_gzfilename(filename)`. -/
def loadPickleGzip {α : Type} (fileDir : String) (fs : FileSys α)
    (filename : String) : Except IOErr α :=
  fsRead fs (filePath fileDir (gzfilename filename))

/-- A stored matrix: a shape together with an opaque data payload. -/
structure NdArray where
  shape : List Nat
  payload : Nat
deriving DecidableEq, Repr

/-- `np.squeeze`: drop every axis of extent 1; the data is unchanged. -/
def squeeze (a : NdArray) : NdArray :=
  { shape := a.shape.filter (fun d => d ≠ 1), payload := a.payload }

/-- Contents of a `.mat` file: named matrices. -/
def MatFile : Type := List (String × NdArray)

/-- `saveMat(filename, dataDict)`: append `.mat` when needed and write
`fileDir/filename(.mat)`. -/
def saveMat (fileDir : String) (fs : FileSys MatFile) (filename : String)
    (dataDict : MatFile) : FileSys MatFile :=
  fsWrite fs (filePath fileDir (matFilename filename)) dataDict

/-- `loadMat(filename)`: append `.mat` when needed, raise
`FileNotFoundError` when `fileDir/filename(.mat)` does not exist
(before any matrix data is read), otherwise load and `np.squeeze`
every entry. -/
def loadMat (fileDir : String) (fs : FileSys MatFile) (filename : String) :
    Except IOErr MatFile :=
  match fs (filePath fileDir (matFilename filename)) with
  | none => .error (.fileNotFound (filePath fileDir (matFilename filename)))
  | some d => .ok (d.map (fun kv => (kv.1, squeeze kv.2)))

/-! ## JSONpickleable (io.py lines 322–467)

Python attribute dicts are modelled as insertion-ordered association
lists `List (String × PyVal)`; the mutated dict during a loop over
`state.copy().items()` is modelled as its functional view
`String → Option PyVal` (the loop iterates over the frozen copy while
updating the function).  `PyVal` distinguishes exactly the value
classes the code branches on.
-/

/-- A Python attribute value, as classified by `__getstate__` /
`__setstate__`: `None`; an ordinary value; an instance whose class (or
a class in its mro) is named `VISAObject`; a `HardwareReference`
placeholder; a function (module-level or not); or the bytes produced
by `dill.dumps`. -/
inductive PyVal where
  | pyNone
  | plain (data : Nat)
  | visa (klass : String)
  | hwRef (klass : String)
  | func (isModuleLevel : Bool) (code : Nat)
  | dilledBytes (payload : PyVal)
deriving DecidableEq, Repr

/-- `isinstance(val, HardwareReference)`. -/
def isHwRef : PyVal → Bool
  | .hwRef _ => true
  | _ => false

/-- `dill.loads`: decodes dill bytes, raises on anything else. -/
def dillLoads : PyVal → Option PyVal
  | .dilledBytes p => some p
  | _ => none

/-- A Python dict as an insertion-ordered association list. -/
abbrev PyDict : Type := List (String × PyVal)

/-- Dict lookup (`d[k]`, as an `Option`). -/
def dictOf : PyDict → String → Option PyVal
  | [], _ => none
  | kv :: rest, k => if kv.1 = k then some kv.2 else dictOf rest k

/-- `d[k] = v` on the functional view of a dict. -/
def fupdate (f : String → Option PyVal) (k : String) (v : PyVal) :
    String → Option PyVal :=
  fun q => if q = k then some v else f q

/-- `del d[k]` / `delattr` on the functional view. -/
def fdel (f : String → Option PyVal) (k : String) : String → Option PyVal :=
  fun q => if q = k then none else f q

/-- `d[k] = v` / `setattr` on the association-list form: replace in
place when the key exists, append otherwise. -/
def lset : PyDict → String → PyVal → PyDict
  | [], a, v => [(a, v)]
  | kv :: rest, a, v => if kv.1 = a then (a, v) :: rest else kv :: lset rest a v

/-- Python slice `s[:-n]`. -/
def pyDropLastN (s : String) (n : Nat) : String :=
  String.mk (s.data.take (s.data.length - n))

/-- `key[-7:] == '_dilled'`. -/
def isDilledKey (k : String) : Prop :=
  pyLastN k 7 = "_dilled".data

instance (k : String) : Decidable (isDilledKey k) :=
  inferInstanceAs (Decidable (pyLastN k 7 = "_dilled".data))

/-- `key[:-7]`, the attribute name under which a dilled value is
restored. -/
def dilledBase (k : String) : String :=
  pyDropLastN k 7

/-- One iteration of the `__getstate__` loop over
`state.copy().items()`: keys in `allNotPickled` are marked for
deletion; `VISAObject` values are replaced by a `HardwareReference`
placeholder; non-module functions are stored dilled under
`key + '_dilled'` with the original key marked for deletion; all other
items are left alone.  The accumulator carries the mutated dict and
`keys_to_delete`. -/
def getstateStep (allNotPickled : List String)
    (acc : (String → Option PyVal) × List String) (kv : String × PyVal) :
    (String → Option PyVal) × List String :=
  if kv.1 ∈ allNotPickled then (acc.1, kv.1 :: acc.2)
  else
    match kv.2 with
    | .visa klass =>
        (fupdate acc.1 kv.1 (.hwRef ("Reference to a " ++ klass)), acc.2)
    | .func false code =>
        (fupdate acc.1 (kv.1 ++ "_dilled") (.dilledBytes (.func false code)),
         kv.1 :: acc.2)
    | _ => acc

/-- `JSONpickleable.__getstate__` after the `super()` call: run the
three filtering branches over a copy of the state, then delete the
collected keys.  `allNotPickled` is the union of `notPickled` over the
instance's class and its mro. -/
def getstateCore (allNotPickled : List String) (st₀ : PyDict) :
    String → Option PyVal :=
  let acc := st₀.foldl (getstateStep allNotPickled) (dictOf st₀, [])
  acc.2.foldl fdel acc.1

/-- Modelled from the spec: `Hashable.__getstate__` (class `Hashable`
of `lightlab.laboratory` is not under `src/`); per the
`JSONpickleable` docstring it returns a copy of the instance's
attribute dict with attributes beginning with `__` stripped. -/
def hashableGetstate (instanceDict : PyDict) : PyDict :=
  instanceDict.filter (fun kv => ! "__".data.isPrefixOf kv.1.data)

/-- `JSONpickleable.__getstate__` as a whole. -/
def getstateModel (allNotPickled : List String) (instanceDict : PyDict) :
    String → Option PyVal :=
  getstateCore allNotPickled (hashableGetstate instanceDict)

/-- The fix-up loop shared by `__setstate__` (over
`state.copy().items()`) and `_fromJSONcheck` (over
`restored_object.__dict__.copy().items()`, with `setattr`/`delattr`):
a `HardwareReference` value is replaced by `None`; for a key ending in
`'_dilled'` the un-dilled value is stored under the base name and the
`'_dilled'` key deleted; `dill.loads` raises on a value that is not
dill bytes (the error case). -/
def setstateLoop : PyDict → (String → Option PyVal) →
    Except Unit (String → Option PyVal)
  | [], st => .ok st
  | kv :: rest, st =>
    if isHwRef kv.2 then setstateLoop rest (fupdate st kv.1 .pyNone)
    else if isDilledKey kv.1 then
      match dillLoads kv.2 with
      | some p => setstateLoop rest (fdel (fupdate st (dilledBase kv.1) p) kv.1)
      | none => .error ()
    else setstateLoop rest st

/-- `JSONpickleable.__setstate__(state)`: run the fix-up loop on the
state dict, then set every `notPickled` attribute to `None`, then hand
the dict to `super().__setstate__` (modelled from the spec:
`Hashable.__setstate__` is not under `src/`; it installs the state
dict as the restored instance's attribute dict). -/
def setstateModel (notPickled : List String) (state : PyDict) :
    Except Unit (String → Option PyVal) :=
  match setstateLoop state (dictOf state) with
  | .ok st => .ok (notPickled.foldl (fun f a => fupdate f a .pyNone) st)
  | .error e => .error e

/-- The attribute fix-up tail of `JSONpickleable._fromJSONcheck` after
`jsonpickle` restores an object with attribute dict `restoredDict`:
first set every `notPickled` attribute to `None`, then run the fix-up
loop over a copy of the resulting attribute dict. -/
def fromJSONcheckModel (notPickled : List String) (restoredDict : PyDict) :
    Except Unit (String → Option PyVal) :=
  let d₁ := notPickled.foldl (fun l a => lset l a .pyNone) restoredDict
  setstateLoop d₁ (dictOf d₁)

/-! ## Theorems -/

theorem toMixedRev_zero (bs : List Nat) :
    toMixedRev bs 0 = List.replicate bs.length 0 := by
  induction bs with
  | nil => rfl
  | cons b bs ih => simp [toMixedRev, ih, List.replicate]

theorem incOdoRev_toMixedRev (bs : List Nat) (hb : ∀ b ∈ bs, 0 < b) (k : Nat) :
    incOdoRev bs (toMixedRev bs k) = toMixedRev bs (k + 1) := by
  induction bs generalizing k with
  | nil => rfl
  | cons b bs ih =>
    have hb0 : 0 < b := hb b (List.mem_cons_self b bs)
    have hbs : ∀ x ∈ bs, 0 < x := fun x hx => hb x (List.mem_cons_of_mem b hx)
    have hmod : k % b < b := Nat.mod_lt k hb0
    have hsplit : b * (k / b) + k % b = k := Nat.div_add_mod k b
    by_cases hcase : k % b < b - 1
    · have h1 : k % b + 1 < b := by omega
      have hk1 : k + 1 = (k % b + 1) + b * (k / b) := by omega
      have hmod1 : (k + 1) % b = k % b + 1 := by
        rw [hk1, Nat.add_mul_mod_self_left, Nat.mod_eq_of_lt h1]
      have hdiv1 : (k + 1) / b = k / b := by
        rw [hk1, Nat.add_mul_div_left _ _ hb0, Nat.div_eq_of_lt h1, Nat.zero_add]
      simp [toMixedRev, incOdoRev, hcase, hmod1, hdiv1]
    · have heq : k % b = b - 1 := by omega
      have hmul : b * (k / b + 1) = b * (k / b) + b := by ring
      have hk1 : k + 1 = 0 + b * (k / b + 1) := by omega
      have hmod1 : (k + 1) % b = 0 := by
        rw [hk1, Nat.add_mul_mod_self_left, Nat.zero_mod]
      have hdiv1 : (k + 1) / b = k / b + 1 := by
        rw [hk1, Nat.add_mul_div_left _ _ hb0, Nat.zero_div, Nat.zero_add]
      simp [toMixedRev, incOdoRev, hcase, hmod1, hdiv1, ih hbs]

theorem mixedRadix_zero (size : List Nat) :
    mixedRadix size 0 = List.replicate size.length 0 := by
  unfold mixedRadix
  rw [toMixedRev_zero, List.length_reverse, List.reverse_replicate]

theorem updateOneInternal_stateAfter (size : List Nat)
    (hb : ∀ b ∈ size, 0 < b) (k : Nat) :
    ProgressWriter.updateOneInternal (stateAfter size k) = stateAfter size (k + 1) := by
  have hbrev : ∀ b ∈ size.reverse, 0 < b := by
    intro b hbmem
    exact hb b (List.mem_reverse.mp hbmem)
  unfold ProgressWriter.updateOneInternal stateAfter
  simp only [mixedRadix, List.reverse_reverse]
  rw [incOdoRev_toMixedRev size.reverse hbrev k]
  refine ProgressWriter.mk.injEq .. ▸ ⟨rfl, rfl, rfl, rfl, ?_⟩
  by_cases hc : k + 1 = size.prod
  · simp [hc]
  · have : (size.prod ≤ k) ↔ (size.prod ≤ k + 1) := by omega
    simp [hc, this]

theorem init_eq_stateAfter (size : List Nat) (hb : ∀ b ∈ size, 0 < b) :
    ProgressWriter.init size = stateAfter size 0 := by
  have hprod : 0 < size.prod := List.prod_pos hb
  unfold ProgressWriter.init stateAfter
  rw [mixedRadix_zero]
  have : ¬ (size.prod ≤ 0) := by omega
  simp [this]

theorem updateN_stateAfter (size : List Nat) (hb : ∀ b ∈ size, 0 < b) :
    ∀ k j, j + k ≤ size.prod →
      updateN k (stateAfter size j) = .ok (stateAfter size (j + k)) := by
  intro k
  induction k with
  | zero => intro j _; rfl
  | succ k ih =>
    intro j hj
    have hjlt : j < size.prod := by omega
    have hcompl : (stateAfter size j).completed = false := by
      simp [stateAfter, decide_eq_false_iff_not]
      omega
    have hone : (stateAfter size j).update 1 = .ok (stateAfter size (j + 1)) := by
      unfold ProgressWriter.update
      rw [hcompl]
      simp [Function.iterate_one, updateOneInternal_stateAfter size hb j]
    show (match (stateAfter size j).update 1 with
      | .ok pw' => updateN k pw'
      | .error e => .error e) = _
    rw [hone]
    show updateN k (stateAfter size (j + 1)) = _
    have harith : j + 1 + k = j + (k + 1) := by omega
    rw [ih (j + 1) (by omega), harith]

theorem updateN_init (size : List Nat) (hb : ∀ b ∈ size, 0 < b)
    (k : Nat) (hk : k ≤ size.prod) :
    updateN k (ProgressWriter.init size) = .ok (stateAfter size k) := by
  rw [init_eq_stateAfter size hb]
  have := updateN_stateAfter size hb k 0 (by omega)
  simpa using this

theorem incOdoRev_forall₂ {bs cs : List Nat} (h : List.Forall₂ (· < ·) cs bs) :
    List.Forall₂ (· < ·) (incOdoRev bs cs) bs := by
  induction h with
  | nil => exact List.Forall₂.nil
  | @cons c s cs' ss' hcs hrest ih =>
    show List.Forall₂ (· < ·) (incOdoRev (s :: ss') (c :: cs')) (s :: ss')
    unfold incOdoRev
    by_cases hcase : c < s - 1
    · simp only [hcase, if_true]
      exact List.Forall₂.cons (by omega) hrest
    · simp only [hcase, if_false]
      exact List.Forall₂.cons (by omega) ih

theorem updateOneInternal_forall₂ (pw : ProgressWriter)
    (h : List.Forall₂ (· < ·) pw.currentPnt pw.size) :
    List.Forall₂ (· < ·) (pw.updateOneInternal).currentPnt (pw.updateOneInternal).size := by
  show List.Forall₂ (· < ·) (incOdoRev pw.size.reverse pw.currentPnt.reverse).reverse pw.size
  have hrev : List.Forall₂ (· < ·) pw.currentPnt.reverse pw.size.reverse :=
    List.forall₂_reverse_iff.mpr h
  have hinc := incOdoRev_forall₂ hrev
  have := List.forall₂_reverse_iff.mpr hinc
  simpa using this

theorem iterate_updateOneInternal_forall₂ (steps : Nat) (pw : ProgressWriter)
    (h : List.Forall₂ (· < ·) pw.currentPnt pw.size) :
    List.Forall₂ (· < ·) (ProgressWriter.updateOneInternal^[steps] pw).currentPnt
      (ProgressWriter.updateOneInternal^[steps] pw).size ∧
    (ProgressWriter.updateOneInternal^[steps] pw).size = pw.size := by
  induction steps generalizing pw with
  | zero => exact ⟨h, rfl⟩
  | succ n ih =>
    rw [Function.iterate_succ_apply]
    have hstep := updateOneInternal_forall₂ pw h
    have := ih pw.updateOneInternal hstep
    exact ⟨this.1, this.2⟩

theorem forall₂_lt_of_inBoundsIdx (pw : ProgressWriter)
    (hb : ∀ b ∈ pw.size, 0 < b) (h : inBoundsIdx pw) :
    List.Forall₂ (· < ·) pw.currentPnt pw.size := by
  rw [List.forall₂_iff_get]
  refine ⟨h.1, fun i h₁ h₂ => ?_⟩
  have hbi : 0 < pw.size.get ⟨i, h₂⟩ := hb _ (pw.size.get_mem i h₂)
  have := h.2 i h₁ h₂
  omega

theorem inBoundsIdx_of_forall₂ (pw : ProgressWriter)
    (h : List.Forall₂ (· < ·) pw.currentPnt pw.size) : inBoundsIdx pw := by
  rw [List.forall₂_iff_get] at h
  exact ⟨h.1, fun i h₁ h₂ => by have := h.2 i h₁ h₂; omega⟩

/-! ### Claim theorems for the ProgressWriter -/

/-- C1: for every `swpSize` of positive dimensions and every
`k ≤ prod swpSize`, the `k`-th state reached by single-step `update()`
calls from a fresh `ProgressWriter` exists (no call raises) and its
`completed` flag is `True` exactly when `k = prod swpSize`; in
particular after `prod swpSize` calls it is `True` and before the last
call it is `False`. -/
theorem progress_update_completes (swpSize : List Nat) (hb : ∀ b ∈ swpSize, 0 < b)
    (k : Nat) (hk : k ≤ swpSize.prod) :
    ∃ pw, updateN k (ProgressWriter.init swpSize) = .ok pw ∧
      (pw.completed = true ↔ k = swpSize.prod) := by
  refine ⟨stateAfter swpSize k, updateN_init swpSize hb k hk, ?_⟩
  simp only [stateAfter, decide_eq_true_eq]
  omega

/-- Witness for C1 at `swpSize = (2, 3)`: after 6 single-step updates
`completed` is `True`, and after 5 it is still `False`. -/
theorem progress_update_completes_witness :
    (∃ pw, updateN 6 (ProgressWriter.init [2, 3]) = .ok pw ∧
      (pw.completed = true ↔ 6 = List.prod [2, 3])) ∧
    (∃ pw, updateN 5 (ProgressWriter.init [2, 3]) = .ok pw ∧
      (pw.completed = true ↔ 5 = List.prod [2, 3])) :=
  ⟨progress_update_completes [2, 3] (by decide) 6 (by decide),
   progress_update_completes [2, 3] (by decide) 5 (by decide)⟩

/-- C4: the counter advances in odometer order with the last dimension
fastest-varying: after `k < prod swpSize` single-step updates,
`currentPnt` is the mixed-radix representation of `k` in bases
`swpSize` (last dimension least significant) and `ofTotal = k`. -/
theorem progress_odometer_order (swpSize : List Nat) (hb : ∀ b ∈ swpSize, 0 < b)
    (k : Nat) (hk : k < swpSize.prod) :
    ∃ pw, updateN k (ProgressWriter.init swpSize) = .ok pw ∧
      pw.currentPnt = mixedRadix swpSize k ∧ pw.ofTotal = k :=
  ⟨stateAfter swpSize k, updateN_init swpSize hb k (by omega), rfl, rfl⟩

/-- Witness for C4 at `swpSize = (2, 3)`, `k = 4`. -/
theorem progress_odometer_order_witness :
    ∃ pw, updateN 4 (ProgressWriter.init [2, 3]) = .ok pw ∧
      pw.currentPnt = mixedRadix [2, 3] 4 ∧ pw.ofTotal = 4 :=
  progress_odometer_order [2, 3] (by decide) 4 (by decide)

/-- C5: for dimensions all at least 1, the invariant
`0 ≤ currentPnt[i] ≤ size[i] - 1` holds after construction and is
preserved by every successful `update(steps)` call with `steps > 0`
(the counter wraps to zero instead of exceeding a bound). -/
theorem progress_counter_in_bounds (swpSize : List Nat)
    (hb : ∀ b ∈ swpSize, 0 < b) :
    inBoundsIdx (ProgressWriter.init swpSize) ∧
    ∀ (pw : ProgressWriter) (steps : Nat) (pw' : ProgressWriter),
      pw.size = swpSize → inBoundsIdx pw → 0 < steps →
      pw.update steps = .ok pw' → pw'.size = swpSize ∧ inBoundsIdx pw' := by
  constructor
  · refine ⟨by simp [ProgressWriter.init], fun i hc hs => ?_⟩
    simp only [ProgressWriter.init, List.get_replicate]
    omega
  · intro pw steps pw' hsize hinv hsteps hupd
    have hblt : List.Forall₂ (· < ·) pw.currentPnt pw.size :=
      forall₂_lt_of_inBoundsIdx pw (hsize ▸ hb) hinv
    have hok : pw' = ProgressWriter.updateOneInternal^[steps] pw := by
      unfold ProgressWriter.update at hupd
      by_cases hc : pw.completed
      · simp [hc] at hupd
      · simp [hc] at hupd
        exact hupd.symm
    have hiter := iterate_updateOneInternal_forall₂ steps pw hblt
    subst hok
    exact ⟨hiter.2.trans hsize, inBoundsIdx_of_forall₂ _ hiter.1⟩

/-- Witness for C5 at `swpSize = (2, 3)`: the invariant holds at
construction and after one update step. -/
theorem progress_counter_in_bounds_witness :
    inBoundsIdx (ProgressWriter.init [2, 3]) ∧
    (⟨[2, 3], [0, 1], 6, 1, false⟩ : ProgressWriter).size = [2, 3] ∧
    inBoundsIdx (⟨[2, 3], [0, 1], 6, 1, false⟩ : ProgressWriter) := by
  have h := progress_counter_in_bounds [2, 3] (by decide)
  refine ⟨h.1, h.2 (ProgressWriter.init [2, 3]) 1 _ rfl h.1 (by decide) rfl⟩

/-- C9: calling `update` (any `steps`) on a `ProgressWriter` whose
`completed` flag is already `True` raises the completed-sweep
exception; the raise is the first statement of `update`, before any
counter mutation, so the model returns the error without producing a
new state. -/
theorem update_raises_when_completed (pw : ProgressWriter) (steps : Nat)
    (h : pw.completed = true) :
    pw.update steps = .error completedErrMsg := by
  simp [ProgressWriter.update, h]

/-- Witness for C9 on a finished 2-point sweep. -/
theorem update_raises_when_completed_witness :
    (⟨[2], [1], 2, 2, true⟩ : ProgressWriter).update 1 = .error completedErrMsg :=
  update_raises_when_completed _ 1 rfl

theorem pyLastN_eq_iff_suffix (s : String) (t : List Char) :
    pyLastN s t.length = t ↔ t <:+ s.data := by
  rw [List.suffix_iff_eq_drop]
  unfold pyLastN
  exact eq_comm

theorem matFilename_eq_spec (filename : String) :
    matFilename filename = matFilenameSpec filename := by
  unfold matFilename matFilenameSpec
  have h4 : (".mat".data).length = 4 := rfl
  have hiff := pyLastN_eq_iff_suffix filename ".mat".data
  rw [h4] at hiff
  by_cases hc : ".mat".data <:+ filename.data
  · rw [if_pos (hiff.mpr hc), if_pos hc]
  · rw [if_neg (fun hx => hc (hiff.mp hx)), if_neg hc]

/-! ### Claim theorems for the persistence helpers -/

/-- C2: when `fileDir/filename` (with `.mat` appended when the name
does not already end in `.mat`) does not exist, `loadMat` raises
`FileNotFoundError` for that path; the existence check precedes
`sio.loadmat`, so no matrix data is read. -/
theorem loadMat_missing_raises (fileDir : String) (fs : FileSys MatFile)
    (filename : String)
    (h : fs (filePath fileDir (matFilename filename)) = none) :
    loadMat fileDir fs filename =
      .error (.fileNotFound (filePath fileDir (matFilename filename))) := by
  simp [loadMat, h]

/-- Witness for C2 on an empty filesystem. -/
theorem loadMat_missing_raises_witness :
    loadMat "data" (fun _ => none) "experiment1" =
      .error (.fileNotFound (filePath "data" (matFilename "experiment1"))) :=
  loadMat_missing_raises "data" (fun _ => none) "experiment1" rfl

/-- C6: `savePickle(f, v)` followed by `loadPickle(f)` (with `fileDir`
unchanged) returns `v`; the save writes exactly the resolved path
`fileDir/f`, and the load reads the same path. -/
theorem pickle_roundtrip (α : Type) (fileDir : String) (fs : FileSys α)
    (filename : String) (v : α) :
    loadPickle fileDir (savePickle fileDir fs filename v) filename = .ok v ∧
    savePickle fileDir fs filename v (filePath fileDir filename) = some v := by
  constructor
  · simp [loadPickle, savePickle, fsRead, fsWrite]
  · simp [savePickle, fsWrite]

/-- C7: `saveMat` and `loadMat` share the fixed `.mat` extension
convention (append `.mat` exactly when the name does not already end
in `.mat` — the slice test `filename[-4:] != '.mat'` coincides with
the spec's suffix test), so a save followed by a load addresses the
same file and succeeds, returning the squeezed matrices. -/
theorem mat_extension_convention (filename : String) :
    matFilename filename = matFilenameSpec filename ∧
    ∀ (fileDir : String) (fs : FileSys MatFile) (dataDict : MatFile),
      loadMat fileDir (saveMat fileDir fs filename dataDict) filename =
        .ok (dataDict.map (fun kv => (kv.1, squeeze kv.2))) := by
  refine ⟨matFilename_eq_spec filename, fun fileDir fs dataDict => ?_⟩
  simp [loadMat, saveMat, fsWrite]

/-- C8: `_gzfilename` is total and idempotent — its result always ends
in `.gz`, applying it twice equals applying it once, and it is the
identity exactly on names already ending in `.gz`; `savePickleGzip`
and `loadPickleGzip` both address `fileDir/_gzfilename(filename)`, so
a save followed by a load returns the saved value. -/
theorem gz_filename_convention (filename : String) :
    (".gz".data <:+ (gzfilename filename).data) ∧
    gzfilename (gzfilename filename) = gzfilename filename ∧
    (gzfilename filename = filename ↔ ".gz".data <:+ filename.data) ∧
    ∀ (α : Type) (fileDir : String) (fs : FileSys α) (v : α),
      loadPickleGzip fileDir (savePickleGzip fileDir fs filename v) filename =
        .ok v := by
  have hends : ".gz".data <:+ (gzfilename filename).data := by
    unfold gzfilename
    by_cases hc : ".gz".data <:+ filename.data
    · rwa [if_pos hc]
    · rw [if_neg hc, String.data_append]
      exact List.suffix_append _ _
  refine ⟨hends, ?_, ?_, ?_⟩
  · unfold gzfilename at hends ⊢
    by_cases hc : ".gz".data <:+ filename.data
    · rw [if_pos hc, if_pos hc]
    · rw [if_neg hc] at hends ⊢
      rw [if_pos hends]
  · constructor
    · intro heq
      rw [← heq]
      exact hends
    · intro hc
      unfold gzfilename
      rw [if_pos hc]
  · intro α fileDir fs v
    simp [loadPickleGzip, savePickleGzip, fsRead, fsWrite]

/-! ### Dict lemmas -/

theorem dictOf_mem (l : PyDict) (k : String) (v : PyVal)
    (h : dictOf l k = some v) : (k, v) ∈ l := by
  induction l with
  | nil => simp [dictOf] at h
  | cons kv rest ih =>
    unfold dictOf at h
    by_cases hc : kv.1 = k
    · rw [if_pos hc] at h
      have hv : kv.2 = v := Option.some.inj h
      rw [← hc, ← hv]
      exact List.mem_cons_self kv rest
    · rw [if_neg hc] at h
      exact List.mem_cons_of_mem kv (ih h)

theorem dictOf_eq_of_mem (l : PyDict) (hnd : (l.map Prod.fst).Nodup)
    (k : String) (v : PyVal) (h : (k, v) ∈ l) : dictOf l k = some v := by
  induction l with
  | nil => simp at h
  | cons kv rest ih =>
    rw [List.map_cons, List.nodup_cons] at hnd
    rcases List.mem_cons.mp h with heq | hrest
    · subst heq
      simp [dictOf]
    · have hk : kv.1 ≠ k := by
        intro hc
        exact hnd.1 (hc ▸ List.mem_map_of_mem Prod.fst hrest)
      rw [dictOf, if_neg hk]
      exact ih hnd.2 hrest

theorem mem_val_unique (l : PyDict) (hnd : (l.map Prod.fst).Nodup)
    (k : String) (v w : PyVal) (hv : (k, v) ∈ l) (hw : (k, w) ∈ l) : v = w := by
  have h1 := dictOf_eq_of_mem l hnd k v hv
  have h2 := dictOf_eq_of_mem l hnd k w hw
  rw [h1] at h2
  exact Option.some.inj h2

theorem fdel_fold (dels : List String) (f : String → Option PyVal) (k : String) :
    (dels.foldl fdel f) k = if k ∈ dels then none else f k := by
  induction dels generalizing f with
  | nil => simp
  | cons d rest ih =>
    show (rest.foldl fdel (fdel f d)) k = _
    rw [ih (fdel f d)]
    by_cases hr : k ∈ rest
    · simp [hr]
    · by_cases hd : k = d
      · simp [hr, hd, fdel]
      · simp [hr, hd, fdel, List.mem_cons]

theorem fupdate_fold_none (np : List String) (f : String → Option PyVal)
    (a : String) :
    (np.foldl (fun g b => fupdate g b .pyNone) f) a =
      if a ∈ np then some .pyNone else f a := by
  induction np generalizing f with
  | nil => simp
  | cons b rest ih =>
    show (rest.foldl _ (fupdate f b .pyNone)) a = _
    rw [ih (fupdate f b .pyNone)]
    by_cases hr : a ∈ rest
    · simp [hr]
    · by_cases hb : a = b
      · simp [hr, hb, fupdate]
      · simp [hr, hb, fupdate, List.mem_cons]

theorem lset_mem (l : PyDict) (a : String) (v : PyVal) (kv : String × PyVal)
    (h : kv ∈ lset l a v) : kv = (a, v) ∨ kv ∈ l := by
  induction l with
  | nil => simpa [lset] using h
  | cons kv₀ rest ih =>
    unfold lset at h
    by_cases hc : kv₀.1 = a
    · rw [if_pos hc] at h
      rcases List.mem_cons.mp h with heq | hrest
      · exact Or.inl heq
      · exact Or.inr (List.mem_cons_of_mem kv₀ hrest)
    · rw [if_neg hc] at h
      rcases List.mem_cons.mp h with heq | hrest
      · exact Or.inr (heq ▸ List.mem_cons_self kv₀ rest)
      · rcases ih hrest with h1 | h2
        · exact Or.inl h1
        · exact Or.inr (List.mem_cons_of_mem kv₀ h2)

theorem dictOf_lset (l : PyDict) (a : String) (v : PyVal) (k : String) :
    dictOf (lset l a v) k = if k = a then some v else dictOf l k := by
  induction l with
  | nil =>
    by_cases hk : k = a
    · simp [lset, dictOf, hk]
    · have hk' : ¬ (a = k) := fun h => hk h.symm
      simp [lset, dictOf, hk, hk']
  | cons kv rest ih =>
    have hd : ∀ (y : String × PyVal) (X : PyDict),
        dictOf (y :: X) k = if y.1 = k then some y.2 else dictOf X k :=
      fun y X => rfl
    have hl : lset (kv :: rest) a v =
        if kv.1 = a then (a, v) :: rest else kv :: lset rest a v := rfl
    by_cases hc : kv.1 = a
    · rw [hl, if_pos hc, hd, hd]
      by_cases hk : k = a
      · subst hk
        simp
      · have hk' : ¬ (a = k) := fun h => hk h.symm
        have hkvk : ¬ (kv.1 = k) := by rw [hc]; exact hk'
        simp [hk, hk', hkvk]
    · rw [hl, if_neg hc, hd, hd, ih]
      by_cases hkv : kv.1 = k
      · have hk : ¬ (k = a) := fun hh => hc (hkv.symm ▸ hh)
        simp [hkv, hk]
      · simp [hkv]

theorem dictOf_fold_lset (np : List String) (l : PyDict) (a : String) :
    dictOf (np.foldl (fun d b => lset d b .pyNone) l) a =
      if a ∈ np then some .pyNone else dictOf l a := by
  induction np generalizing l with
  | nil => simp
  | cons b rest ih =>
    show dictOf (rest.foldl _ (lset l b .pyNone)) a = _
    rw [ih (lset l b .pyNone), dictOf_lset]
    by_cases hr : a ∈ rest
    · simp [hr]
    · by_cases hb : a = b
      · simp [hr, hb]
      · simp [hr, hb, List.mem_cons]

theorem fold_lset_mem (np : List String) (l : PyDict) (kv : String × PyVal)
    (h : kv ∈ np.foldl (fun d b => lset d b .pyNone) l) :
    kv.2 = .pyNone ∨ kv ∈ l := by
  induction np generalizing l with
  | nil => exact Or.inr h
  | cons b rest ih =>
    have h' : kv ∈ rest.foldl (fun d b => lset d b .pyNone) (lset l b .pyNone) := h
    rcases ih (lset l b .pyNone) h' with h1 | h2
    · exact Or.inl h1
    · rcases lset_mem l b .pyNone kv h2 with heq | hmem
      · exact Or.inl (by rw [heq])
      · exact Or.inr hmem

theorem keys_lset (l : PyDict) (a : String) (v : PyVal) :
    (lset l a v).map Prod.fst =
      if a ∈ l.map Prod.fst then l.map Prod.fst else l.map Prod.fst ++ [a] := by
  induction l with
  | nil => simp [lset]
  | cons kv rest ih =>
    unfold lset
    by_cases hc : kv.1 = a
    · simp [hc]
    · have hne : ¬ (a = kv.1) := fun h => hc h.symm
      by_cases hr : a ∈ rest.map Prod.fst
      · simp [hc, hr, List.mem_cons, hne, ih]
      · simp [hc, hr, List.mem_cons, hne, ih]

theorem nodup_keys_lset (l : PyDict) (a : String) (v : PyVal)
    (hnd : (l.map Prod.fst).Nodup) : ((lset l a v).map Prod.fst).Nodup := by
  rw [keys_lset]
  by_cases hm : a ∈ l.map Prod.fst
  · simpa [hm] using hnd
  · rw [if_neg hm, List.nodup_append]
    refine ⟨hnd, List.nodup_singleton a, ?_⟩
    intro x hx hxa
    rw [List.mem_singleton] at hxa
    subst hxa
    exact hm hx

theorem nodup_keys_fold_lset (np : List String) (l : PyDict)
    (hnd : (l.map Prod.fst).Nodup) :
    ((np.foldl (fun d b => lset d b .pyNone) l).map Prod.fst).Nodup := by
  induction np generalizing l with
  | nil => exact hnd
  | cons b rest ih => exact ih (lset l b .pyNone) (nodup_keys_lset l b .pyNone hnd)

/-! ### `__getstate__` lemmas (claim C3) -/

theorem getstateStep_dels_mono (allNotPickled : List String) (l : PyDict)
    (acc : (String → Option PyVal) × List String) (k : String)
    (h : k ∈ acc.2) : k ∈ (l.foldl (getstateStep allNotPickled) acc).2 := by
  induction l generalizing acc with
  | nil => exact h
  | cons kv rest ih =>
    show k ∈ (rest.foldl (getstateStep allNotPickled)
      (getstateStep allNotPickled acc kv)).2
    apply ih
    unfold getstateStep
    by_cases h1 : kv.1 ∈ allNotPickled
    · rw [if_pos h1]
      exact List.mem_cons_of_mem _ h
    · rw [if_neg h1]
      cases kv.2 with
      | visa klass => exact h
      | func b code =>
        cases b with
        | true => exact h
        | false => exact List.mem_cons_of_mem _ h
      | pyNone => exact h
      | plain d => exact h
      | hwRef s => exact h
      | dilledBytes p => exact h

theorem getstate_fold_dels (allNotPickled : List String) (l : PyDict)
    (acc : (String → Option PyVal) × List String) (k : String) (v : PyVal)
    (hm : (k, v) ∈ l) (hnp : k ∈ allNotPickled) :
    k ∈ (l.foldl (getstateStep allNotPickled) acc).2 := by
  induction l generalizing acc with
  | nil => simp at hm
  | cons kv rest ih =>
    show k ∈ (rest.foldl (getstateStep allNotPickled)
      (getstateStep allNotPickled acc kv)).2
    rcases List.mem_cons.mp hm with heq | hrest
    · apply getstateStep_dels_mono
      have hk1 : kv.1 = k := by rw [← heq]
      unfold getstateStep
      rw [hk1, if_pos hnp]
      exact List.mem_cons_self k acc.2
    · exact ih (getstateStep allNotPickled acc kv) hrest

theorem getstateStep_val (allNotPickled : List String)
    (acc : (String → Option PyVal) × List String) (kv : String × PyVal)
    (k : String) (hnp : k ∈ allNotPickled) :
    (getstateStep allNotPickled acc kv).1 k = acc.1 k ∨
    ∃ p, (getstateStep allNotPickled acc kv).1 k = some (.dilledBytes p) := by
  unfold getstateStep
  by_cases h1 : kv.1 ∈ allNotPickled
  · rw [if_pos h1]
    exact Or.inl rfl
  · rw [if_neg h1]
    have hne : ¬ (k = kv.1) := fun hh => h1 (hh ▸ hnp)
    cases kv.2 with
    | visa klass =>
      left
      show fupdate acc.1 kv.1 _ k = acc.1 k
      simp [fupdate, hne]
    | func b code =>
      cases b with
      | true => exact Or.inl rfl
      | false =>
        by_cases hk : k = kv.1 ++ "_dilled"
        · refine Or.inr ⟨.func false code, ?_⟩
          show fupdate acc.1 (kv.1 ++ "_dilled") _ k = _
          simp [fupdate, hk]
        · left
          show fupdate acc.1 (kv.1 ++ "_dilled") _ k = acc.1 k
          simp [fupdate, hk]
    | pyNone => exact Or.inl rfl
    | plain d => exact Or.inl rfl
    | hwRef s => exact Or.inl rfl
    | dilledBytes p => exact Or.inl rfl

theorem getstate_fold_val (allNotPickled : List String) (l : PyDict)
    (acc : (String → Option PyVal) × List String) (k : String)
    (hnp : k ∈ allNotPickled) :
    (l.foldl (getstateStep allNotPickled) acc).1 k = acc.1 k ∨
    ∃ p, (l.foldl (getstateStep allNotPickled) acc).1 k = some (.dilledBytes p) := by
  induction l generalizing acc with
  | nil => exact Or.inl rfl
  | cons kv rest ih =>
    show (rest.foldl (getstateStep allNotPickled)
      (getstateStep allNotPickled acc kv)).1 k = _ ∨ _
    rcases ih (getstateStep allNotPickled acc kv) with h | h
    · rcases getstateStep_val allNotPickled acc kv k hnp with h2 | ⟨p, h2⟩
      · exact Or.inl (h.trans h2)
      · exact Or.inr ⟨p, h.trans h2⟩
    · exact Or.inr h

theorem getstateCore_filters (allNotPickled : List String) (st₁ : PyDict)
    (k : String) (hk : k ∈ allNotPickled) :
    getstateCore allNotPickled st₁ k = none ∨
    ∃ p, getstateCore allNotPickled st₁ k = some (.dilledBytes p) := by
  have hunfold : getstateCore allNotPickled st₁ =
      ((st₁.foldl (getstateStep allNotPickled) (dictOf st₁, [])).2.foldl fdel
        (st₁.foldl (getstateStep allNotPickled) (dictOf st₁, [])).1) := rfl
  rw [hunfold, fdel_fold]
  by_cases hdel : k ∈ (st₁.foldl (getstateStep allNotPickled) (dictOf st₁, [])).2
  · rw [if_pos hdel]
    exact Or.inl rfl
  · rw [if_neg hdel]
    rcases hv : dictOf st₁ k with _ | v
    · rcases getstate_fold_val allNotPickled st₁ (dictOf st₁, []) k hk with h | ⟨p, h⟩
      · left
        rw [h]
        exact hv
      · exact Or.inr ⟨p, h⟩
    · exact absurd (getstate_fold_dels allNotPickled st₁ (dictOf st₁, []) k v
        (dictOf_mem st₁ k v hv) hk) hdel

/-! ### Claim C3 -/

/-- Counterexample to C3 as stated: with `notPickled = {'f_dilled'}`
and a single attribute `f` holding a non-module function, the state
returned by `__getstate__` does contain the `notPickled` member
`'f_dilled'` — the dill branch creates it under `key + '_dilled'`
after the filtering test already ran on the original key `'f'`. -/
theorem getstate_notPickled_counterexample :
    getstateModel ["f_dilled"] [("f", PyVal.func false 0)] "f_dilled" =
      some (PyVal.dilledBytes (PyVal.func false 0)) ∧
    "f_dilled" ∈ ["f_dilled"] := by
  constructor
  · rfl
  · exact List.mem_cons_self _ _

/-- C3 (amended): the state dict returned by `__getstate__` holds no
key from the union of `notPickled` over the class's mro, except
possibly a `key + '_dilled'` entry (carrying a dill-serialized
function) whose name happens to lie in `notPickled`: under every
`notPickled` name the returned state holds either nothing or dill
bytes.  `__getstate__` operates on the copy returned by
`super().__getstate__()`, so the instance's own attribute dict is a
distinct, unmodified value. -/
theorem getstate_filters_notPickled (allNotPickled : List String)
    (instanceDict : PyDict) (k : String) (hk : k ∈ allNotPickled) :
    getstateModel allNotPickled instanceDict k = none ∨
    ∃ p, getstateModel allNotPickled instanceDict k = some (.dilledBytes p) :=
  getstateCore_filters allNotPickled (hashableGetstate instanceDict) k hk

/-- Witness for C3 (amended): a `notPickled` instrument attribute is
absent from the returned state. -/
theorem getstate_filters_notPickled_witness :
    getstateModel ["instrument"]
      [("instrument", PyVal.visa "Keithley"), ("x", PyVal.plain 3)]
      "instrument" = none ∨
    ∃ p, getstateModel ["instrument"]
      [("instrument", PyVal.visa "Keithley"), ("x", PyVal.plain 3)]
      "instrument" = some (PyVal.dilledBytes p) :=
  getstate_filters_notPickled ["instrument"]
    [("instrument", PyVal.visa "Keithley"), ("x", PyVal.plain 3)]
    "instrument" (List.mem_cons_self _ _)

/-! ### `__setstate__` / `_fromJSONcheck` lemmas (claim C10) -/

theorem isHwRef_true_iff (v : PyVal) : isHwRef v = true ↔ ∃ s, v = .hwRef s := by
  cases v <;> simp [isHwRef]

theorem dillLoads_eq_some (v p : PyVal) (h : dillLoads v = some p) :
    v = .dilledBytes p := by
  cases v <;> simp_all [dillLoads]

theorem dilledBase_ne (k : String) (hd : isDilledKey k) : dilledBase k ≠ k := by
  intro he
  unfold isDilledKey pyLastN at hd
  have h7 : (k.data.drop (k.data.length - 7)).length = ("_dilled".data).length := by
    rw [hd]
  rw [List.length_drop] at h7
  have hlen7 : ("_dilled".data).length = 7 := rfl
  have hdl := congrArg List.length (congrArg String.data he)
  have hdata : (dilledBase k).data = k.data.take (k.data.length - 7) := rfl
  rw [hdata, List.length_take] at hdl
  omega

theorem setstateLoop_cons (kv : String × PyVal) (rest : PyDict)
    (st : String → Option PyVal) :
    setstateLoop (kv :: rest) st =
      (if isHwRef kv.2 then setstateLoop rest (fupdate st kv.1 .pyNone)
       else if isDilledKey kv.1 then
         match dillLoads kv.2 with
         | some p => setstateLoop rest (fdel (fupdate st (dilledBase kv.1) p) kv.1)
         | none => .error ()
       else setstateLoop rest st) := rfl

theorem setstateLoop_cons_hwRef (kv : String × PyVal) (rest : PyDict)
    (st : String → Option PyVal) (hb : isHwRef kv.2 = true) :
    setstateLoop (kv :: rest) st = setstateLoop rest (fupdate st kv.1 .pyNone) := by
  rw [setstateLoop_cons, if_pos hb]

theorem setstateLoop_cons_dilled (kv : String × PyVal) (rest : PyDict)
    (st : String → Option PyVal) (hb : isHwRef kv.2 = false)
    (hd : isDilledKey kv.1) (p : PyVal) (hl : dillLoads kv.2 = some p) :
    setstateLoop (kv :: rest) st =
      setstateLoop rest (fdel (fupdate st (dilledBase kv.1) p) kv.1) := by
  rw [setstateLoop_cons, if_neg (by simp [hb]), if_pos hd, hl]

theorem setstateLoop_cons_dilled_err (kv : String × PyVal) (rest : PyDict)
    (st : String → Option PyVal) (hb : isHwRef kv.2 = false)
    (hd : isDilledKey kv.1) (hl : dillLoads kv.2 = none) :
    setstateLoop (kv :: rest) st = .error () := by
  rw [setstateLoop_cons, if_neg (by simp [hb]), if_pos hd, hl]

theorem setstateLoop_cons_other (kv : String × PyVal) (rest : PyDict)
    (st : String → Option PyVal) (hb : isHwRef kv.2 = false)
    (hd : ¬ isDilledKey kv.1) :
    setstateLoop (kv :: rest) st = setstateLoop rest st := by
  rw [setstateLoop_cons, if_neg (by simp [hb]), if_neg hd]

theorem setstateLoop_no_hwRef (l : PyDict) :
    ∀ (st st' : String → Option PyVal),
    (∀ k p, (k, PyVal.dilledBytes p) ∈ l → isHwRef p = false) →
    (∀ k s, st k = some (.hwRef s) → (k, PyVal.hwRef s) ∈ l) →
    setstateLoop l st = .ok st' →
    ∀ k v, st' k = some v → isHwRef v = false := by
  induction l with
  | nil =>
    intro st st' _ hinv hok k v hv
    have hst : st = st' := Except.ok.inj hok
    subst hst
    cases v with
    | hwRef s => exact absurd (hinv k s hv) (List.not_mem_nil _)
    | pyNone => rfl
    | plain d => rfl
    | visa kl => rfl
    | func b c => rfl
    | dilledBytes p => rfl
  | cons kv rest ih =>
    intro st st' hpay hinv hok k v hv
    have hpay' : ∀ k p, (k, PyVal.dilledBytes p) ∈ rest → isHwRef p = false :=
      fun k p hm => hpay k p (List.mem_cons_of_mem kv hm)
    by_cases hb : isHwRef kv.2 = true
    · rw [setstateLoop_cons_hwRef kv rest st hb] at hok
      refine ih (fupdate st kv.1 .pyNone) st' hpay' ?_ hok k v hv
      intro k' s' hk'
      unfold fupdate at hk'
      by_cases hkk : k' = kv.1
      · rw [if_pos hkk] at hk'
        simp at hk'
      · rw [if_neg hkk] at hk'
        rcases List.mem_cons.mp (hinv k' s' hk') with heq | hmem
        · exact absurd (congrArg Prod.fst heq) hkk
        · exact hmem
    · have hbf : isHwRef kv.2 = false := by simpa using hb
      by_cases hd : isDilledKey kv.1
      · rcases hdl : dillLoads kv.2 with _ | p
        · rw [setstateLoop_cons_dilled_err kv rest st hbf hd hdl] at hok
          exact Except.noConfusion hok
        · rw [setstateLoop_cons_dilled kv rest st hbf hd p hdl] at hok
          have hkv2 : kv.2 = .dilledBytes p := dillLoads_eq_some kv.2 p hdl
          have hmemp : (kv.1, PyVal.dilledBytes p) ∈ kv :: rest := by
            rw [← hkv2]
            exact List.mem_cons_self kv rest
          have hpfalse : isHwRef p = false := hpay kv.1 p hmemp
          refine ih _ st' hpay' ?_ hok k v hv
          intro k' s' hk'
          unfold fdel fupdate at hk'
          by_cases hk1 : k' = kv.1
          · rw [if_pos hk1] at hk'
            exact Option.noConfusion hk'
          · rw [if_neg hk1] at hk'
            by_cases hk2 : k' = dilledBase kv.1
            · rw [if_pos hk2] at hk'
              have : p = PyVal.hwRef s' := Option.some.inj hk'
              rw [this] at hpfalse
              exact absurd hpfalse (by simp [isHwRef])
            · rw [if_neg hk2] at hk'
              rcases List.mem_cons.mp (hinv k' s' hk') with heq | hmem
              · exact absurd (congrArg Prod.fst heq) hk1
              · exact hmem
      · rw [setstateLoop_cons_other kv rest st hbf hd] at hok
        refine ih st st' hpay' ?_ hok k v hv
        intro k' s' hk'
        rcases List.mem_cons.mp (hinv k' s' hk') with heq | hmem
        · exfalso
          have : kv.2 = PyVal.hwRef s' := (congrArg Prod.snd heq).symm
          rw [this] at hbf
          simp [isHwRef] at hbf
        · exact hmem

theorem setstateLoop_preserves_none (l : PyDict) :
    ∀ (st st' : String → Option PyVal) (a : String),
    (∀ v, (a, v) ∈ l → dillLoads v = none ∨ ¬ isDilledKey a) →
    (∀ k p, (k, PyVal.dilledBytes p) ∈ l → isDilledKey k → dilledBase k ≠ a) →
    st a = some .pyNone →
    setstateLoop l st = .ok st' →
    st' a = some .pyNone := by
  induction l with
  | nil =>
    intro st st' a _ _ ha hok
    have hst : st = st' := Except.ok.inj hok
    rw [← hst]
    exact ha
  | cons kv rest ih =>
    intro st st' a hself hbase ha hok
    have hself' : ∀ v, (a, v) ∈ rest → dillLoads v = none ∨ ¬ isDilledKey a :=
      fun v hm => hself v (List.mem_cons_of_mem kv hm)
    have hbase' : ∀ k p, (k, PyVal.dilledBytes p) ∈ rest → isDilledKey k →
        dilledBase k ≠ a :=
      fun k p hm => hbase k p (List.mem_cons_of_mem kv hm)
    by_cases hb : isHwRef kv.2 = true
    · rw [setstateLoop_cons_hwRef kv rest st hb] at hok
      refine ih _ st' a hself' hbase' ?_ hok
      by_cases hak : a = kv.1
      · simp [fupdate, hak]
      · simp [fupdate, hak, ha]
    · have hbf : isHwRef kv.2 = false := by simpa using hb
      by_cases hd : isDilledKey kv.1
      · rcases hdl : dillLoads kv.2 with _ | p
        · rw [setstateLoop_cons_dilled_err kv rest st hbf hd hdl] at hok
          exact Except.noConfusion hok
        · rw [setstateLoop_cons_dilled kv rest st hbf hd p hdl] at hok
          have hkv2 : kv.2 = .dilledBytes p := dillLoads_eq_some kv.2 p hdl
          by_cases hka : kv.1 = a
          · exfalso
            have hmem : (a, kv.2) ∈ kv :: rest := by
              rw [← hka]
              exact List.mem_cons_self kv rest
            rcases hself kv.2 hmem with h1 | h2
            · rw [hdl] at h1
              exact Option.noConfusion h1
            · exact h2 (hka ▸ hd)
          · refine ih _ st' a hself' hbase' ?_ hok
            have hmemp : (kv.1, PyVal.dilledBytes p) ∈ kv :: rest := by
              rw [← hkv2]
              exact List.mem_cons_self kv rest
            have hbne : dilledBase kv.1 ≠ a := hbase kv.1 p hmemp hd
            have hak : ¬ (a = kv.1) := fun h => hka h.symm
            have hab : ¬ (a = dilledBase kv.1) := fun h => hbne h.symm
            simp [fdel, fupdate, hak, hab, ha]
      · rw [setstateLoop_cons_other kv rest st hbf hd] at hok
        exact ih st st' a hself' hbase' ha hok

theorem setstateLoop_hwRef_none (l : PyDict) :
    ∀ (st st' : String → Option PyVal) (k₀ s : String),
    (k₀, PyVal.hwRef s) ∈ l →
    (∀ v, (k₀, v) ∈ l → v = PyVal.hwRef s) →
    (∀ k p, (k, PyVal.dilledBytes p) ∈ l → isDilledKey k → dilledBase k ≠ k₀) →
    setstateLoop l st = .ok st' →
    st' k₀ = some .pyNone := by
  induction l with
  | nil =>
    intro st st' k₀ s hmem _ _ _
    exact absurd hmem (List.not_mem_nil _)
  | cons kv rest ih =>
    intro st st' k₀ s hmem huniq hbase hok
    have huniq' : ∀ v, (k₀, v) ∈ rest → v = PyVal.hwRef s :=
      fun v hm => huniq v (List.mem_cons_of_mem kv hm)
    have hbase' : ∀ k p, (k, PyVal.dilledBytes p) ∈ rest → isDilledKey k →
        dilledBase k ≠ k₀ :=
      fun k p hm => hbase k p (List.mem_cons_of_mem kv hm)
    by_cases hk : kv.1 = k₀
    · have hv : kv.2 = PyVal.hwRef s := by
        apply huniq
        rw [← hk]
        exact List.mem_cons_self kv rest
      have hb : isHwRef kv.2 = true := by
        rw [hv]
        rfl
      rw [setstateLoop_cons_hwRef kv rest st hb, hk] at hok
      refine setstateLoop_preserves_none rest _ st' k₀ ?_ hbase' ?_ hok
      · intro v hm
        left
        rw [huniq' v hm]
        rfl
      · simp [fupdate]
    · have hmem' : (k₀, PyVal.hwRef s) ∈ rest := by
        rcases List.mem_cons.mp hmem with heq | h2
        · exact absurd (congrArg Prod.fst heq).symm hk
        · exact h2
      by_cases hb : isHwRef kv.2 = true
      · rw [setstateLoop_cons_hwRef kv rest st hb] at hok
        exact ih _ st' k₀ s hmem' huniq' hbase' hok
      · have hbf : isHwRef kv.2 = false := by simpa using hb
        by_cases hd : isDilledKey kv.1
        · rcases hdl : dillLoads kv.2 with _ | p
          · rw [setstateLoop_cons_dilled_err kv rest st hbf hd hdl] at hok
            exact Except.noConfusion hok
          · rw [setstateLoop_cons_dilled kv rest st hbf hd p hdl] at hok
            exact ih _ st' k₀ s hmem' huniq' hbase' hok
        · rw [setstateLoop_cons_other kv rest st hbf hd] at hok
          exact ih st st' k₀ s hmem' huniq' hbase' hok

/-! ### Claim C10 -/

/-- Counterexample to C10 as stated: restoring via `_fromJSONcheck`
with `notPickled = {'f'}` and a stored entry
`'f_dilled' ↦ dill.dumps(HardwareReference)` leaves attribute `f`
holding a `HardwareReference`, not `None` — the `notPickled` pass runs
*before* the `'_dilled'` restore pass, which overwrites `f`. -/
theorem fromJSONcheck_counterexample :
    (fromJSONcheckModel ["f"]
      [("f_dilled", PyVal.dilledBytes (PyVal.hwRef "X"))]).map
        (fun st => st "f") = .ok (some (PyVal.hwRef "X")) := rfl

/-- C10 (amended): provided no stored key is `k + '_dilled'` with `k`
in `notPickled` or `k` another stored key, and no `'_dilled'` entry's
payload decodes to a `HardwareReference`, then after restoring via
`__setstate__` or via `_fromJSONcheck`: every `notPickled` attribute
exists and is `None`, every attribute stored as a `HardwareReference`
placeholder is `None`, and no attribute holds a `HardwareReference`. -/
theorem restore_clears_placeholders (notPickled : List String) (state : PyDict)
    (hnd : (state.map Prod.fst).Nodup)
    (hcoll : ∀ k p, (k, PyVal.dilledBytes p) ∈ state → isDilledKey k →
      dilledBase k ∉ notPickled ∧ ∀ w, (dilledBase k, w) ∉ state)
    (hpay : ∀ k p, (k, PyVal.dilledBytes p) ∈ state → isHwRef p = false) :
    (∀ st', setstateModel notPickled state = .ok st' →
      (∀ a ∈ notPickled, st' a = some .pyNone) ∧
      (∀ k s, (k, PyVal.hwRef s) ∈ state → st' k = some .pyNone) ∧
      (∀ k v, st' k = some v → isHwRef v = false)) ∧
    (∀ st', fromJSONcheckModel notPickled state = .ok st' →
      (∀ a ∈ notPickled, st' a = some .pyNone) ∧
      (∀ k s, (k, PyVal.hwRef s) ∈ state → st' k = some .pyNone) ∧
      (∀ k v, st' k = some v → isHwRef v = false)) := by
  constructor
  · -- `__setstate__`: the fix-up loop runs on `state` itself and the
    -- `notPickled` pass comes last.
    intro st' hok
    unfold setstateModel at hok
    rcases hloop : setstateLoop state (dictOf state) with e | st₁
    · rw [hloop] at hok
      exact Except.noConfusion hok
    · rw [hloop] at hok
      have hst' : st' = notPickled.foldl (fun f a => fupdate f a .pyNone) st₁ :=
        (Except.ok.inj hok).symm
      subst hst'
      refine ⟨?_, ?_, ?_⟩
      · intro a ha
        rw [fupdate_fold_none, if_pos ha]
      · intro k s hmem
        have hbase : ∀ k' p, (k', PyVal.dilledBytes p) ∈ state → isDilledKey k' →
            dilledBase k' ≠ k := by
          intro k' p hm hd he
          exact (hcoll k' p hm hd).2 (PyVal.hwRef s) (he ▸ hmem)
        have h1 : st₁ k = some .pyNone :=
          setstateLoop_hwRef_none state (dictOf state) st₁ k s hmem
            (fun v hv => mem_val_unique state hnd k v (PyVal.hwRef s) hv hmem)
            hbase hloop
        rw [fupdate_fold_none]
        by_cases hknp : k ∈ notPickled
        · rw [if_pos hknp]
        · rw [if_neg hknp]
          exact h1
      · intro k v hv
        rw [fupdate_fold_none] at hv
        by_cases hknp : k ∈ notPickled
        · rw [if_pos hknp] at hv
          exact Option.some.inj hv ▸ rfl
        · rw [if_neg hknp] at hv
          exact setstateLoop_no_hwRef state (dictOf state) st₁ hpay
            (fun k' s' h => dictOf_mem state k' (PyVal.hwRef s') h) hloop k v hv
  · -- `_fromJSONcheck`: the `notPickled` pass runs first, the fix-up
    -- loop afterwards, over the already-modified dict `d₁`.
    intro st' hok
    have hok' : setstateLoop (notPickled.foldl (fun l a => lset l a .pyNone) state)
        (dictOf (notPickled.foldl (fun l a => lset l a .pyNone) state)) = .ok st' := hok
    have hd₁mem : ∀ kv : String × PyVal,
        kv ∈ notPickled.foldl (fun l a => lset l a .pyNone) state →
        kv.2 = .pyNone ∨ kv ∈ state :=
      fun kv h => fold_lset_mem notPickled state kv h
    have hd₁nd : ((notPickled.foldl (fun l a => lset l a .pyNone) state).map
        Prod.fst).Nodup := nodup_keys_fold_lset notPickled state hnd
    have hd₁pay : ∀ k p,
        (k, PyVal.dilledBytes p) ∈ notPickled.foldl (fun l a => lset l a .pyNone) state →
        isHwRef p = false := by
      intro k p hm
      rcases hd₁mem _ hm with h1 | h2
      · exact absurd h1 (by simp)
      · exact hpay k p h2
    have hnp_none : ∀ a ∈ notPickled, st' a = some .pyNone := by
      intro a ha
      refine setstateLoop_preserves_none _ _ st' a ?_ ?_ ?_ hok'
      · intro v hm
        left
        have hv := dictOf_eq_of_mem _ hd₁nd a v hm
        rw [dictOf_fold_lset, if_pos ha] at hv
        rw [← Option.some.inj hv]
        rfl
      · intro k p hm hd
        rcases hd₁mem _ hm with h1 | h2
        · exact absurd h1 (by simp)
        · intro he
          exact (hcoll k p h2 hd).1 (he ▸ ha)
      · rw [dictOf_fold_lset, if_pos ha]
    refine ⟨hnp_none, ?_, ?_⟩
    · intro k s hmem
      by_cases hknp : k ∈ notPickled
      · exact hnp_none k hknp
      · have hdict : dictOf (notPickled.foldl (fun l a => lset l a .pyNone) state) k =
            some (.hwRef s) := by
          rw [dictOf_fold_lset, if_neg hknp]
          exact dictOf_eq_of_mem state hnd k (PyVal.hwRef s) hmem
        refine setstateLoop_hwRef_none _ _ st' k s (dictOf_mem _ k _ hdict) ?_ ?_ hok'
        · intro v hm
          have hv := dictOf_eq_of_mem _ hd₁nd k v hm
          rw [hdict] at hv
          exact (Option.some.inj hv).symm
        · intro k' p hm hd
          rcases hd₁mem _ hm with h1 | h2
          · exact absurd h1 (by simp)
          · intro he
            exact (hcoll k' p h2 hd).2 (PyVal.hwRef s) (he ▸ hmem)
    · intro k v hv
      exact setstateLoop_no_hwRef _ _ st' hd₁pay
        (fun k' s' h => dictOf_mem _ k' (PyVal.hwRef s') h) hok' k v hv

/-- Witness for C10 (amended): restoring a state with one hardware
placeholder and one `notPickled` name sets both attributes to `None`
via `__setstate__`. -/
theorem restore_clears_placeholders_witness :
    (setstateModel ["ref"]
        [("inst", PyVal.hwRef "Reference to a VISAObject"), ("x", PyVal.plain 5)]).map
      (fun st => (st "ref", st "inst")) =
      .ok (some PyVal.pyNone, some PyVal.pyNone) := by
  have h := restore_clears_placeholders ["ref"]
    [("inst", PyVal.hwRef "Reference to a VISAObject"), ("x", PyVal.plain 5)]
    (by decide)
    (by
      intro k p hm hd
      simp [Prod.ext_iff] at hm)
    (by
      intro k p hm
      simp [Prod.ext_iff] at hm)
  obtain ⟨st₁, hst₁⟩ : ∃ st₁, setstateModel ["ref"]
      [("inst", PyVal.hwRef "Reference to a VISAObject"), ("x", PyVal.plain 5)] =
        .ok st₁ := ⟨_, rfl⟩
  have hparts := h.1 st₁ hst₁
  have href : st₁ "ref" = some PyVal.pyNone :=
    hparts.1 "ref" (List.mem_cons_self _ _)
  have hinst : st₁ "inst" = some PyVal.pyNone :=
    hparts.2.1 "inst" "Reference to a VISAObject" (List.mem_cons_self _ _)
  rw [hst₁]
  simp [Except.map, href, hinst]
